import Mathlib

/-!
Verification of the Wordle-helper core (solver.py): line parsing, guess
extraction, constraint accumulation, candidate filtering, word-list
sanitization and ranking.

Shallow embedding conventions:
* Python strings are embedded as `List Char`.
* Python dictionaries are embedded as association lists with Python's
  assignment semantics (`aset` updates in place, appends new keys at the
  end); Python dict equality is order-insensitive, so statements compare
  dictionaries through `alookup`.
* Python exceptions are embedded with `Except PyError`; code paths that
  raise at runtime (an attribute access on a list, a tuple index out of
  range, an explicit ValueError) return the corresponding error value.
* The library calls unicodedata.normalize("NFKC", s), str.isalpha and
  str.isspace are modelled on the character domain exercised here (ASCII
  letters, ASCII whitespace and the tile emojis, all of which are NFKC
  fixed points, are alphabetic exactly when `Char.isAlpha`, and are
  whitespace exactly when `Char.isWhitespace`).
-/

/-- Errors the embedded code can raise, mirroring the Python exceptions. -/
inductive PyError where
  | attributeError
  | valueError
  | indexError
deriving DecidableEq, Repr

/-- A guess is a (word, feedback) pair of character lists. -/
abbrev Guess := List Char × List Char

/-- Tile emoji for a correct letter. -/
def EMOJI_GREEN : Char := '🟩'

/-- Tile emoji for a present letter. -/
def EMOJI_YELLOW : Char := '🟨'

/-- Tile emoji for an absent letter (alternate gray tiles are mapped to it). -/
def EMOJI_GRAY : Char := '🟥'

/-- Lookup in an association list, mirroring Python dict access. -/
def alookup {K V : Type} [DecidableEq K] (k : K) : List (K × V) → Option V
  | [] => none
  | (k', v') :: t => if k' = k then some v' else alookup k t

/-- Assignment in an association list, mirroring Python dict assignment:
replace the value in place if the key exists, otherwise append. -/
def aset {K V : Type} [DecidableEq K] (k : K) (v : V) : List (K × V) → List (K × V)
  | [] => [(k, v)]
  | (k', v') :: t => if k' = k then (k, v) :: t else (k', v') :: aset k v t

/-- Per-character normalization step of normalize_text: keep tile emojis,
letters and whitespace, map hyphen, underscore and apostrophe to a space,
drop every other decoration. -/
def keep_char (ch : Char) : Option Char :=
  if ch = EMOJI_GREEN ∨ ch = EMOJI_YELLOW ∨ ch = EMOJI_GRAY then some ch
  else if ch.isAlpha ∨ ch.isWhitespace then some ch
  else if ch = '-' ∨ ch = '_' ∨ ch = Char.ofNat 39 then some ' '
  else none

/-- Embeds normalize_text: NFKC (modelled as the identity on the characters
exercised), alternate gray tiles replaced with EMOJI_GRAY, then the
character filter `keep_char`. -/
def normalize_text (s : List Char) : List Char :=
  ((s.map fun ch => if ch = '⬛' ∨ ch = '⬜' then EMOJI_GRAY else ch).filterMap keep_char)

/-- Embeds strip_to_ascii_letters: keep alphabetic characters and downcase. -/
def strip_to_ascii_letters (w : List Char) : List Char :=
  (w.filter Char.isAlpha).map Char.toLower

/-- Embeds Python str.strip(): drop whitespace from both ends. -/
def pystrip (s : List Char) : List Char :=
  ((s.dropWhile Char.isWhitespace).reverse.dropWhile Char.isWhitespace).reverse

/-- Worker for pysplit: accumulates the current token (reversed). -/
def pysplit_go : List Char → List Char → List (List Char)
  | [], cur => if cur.isEmpty then [] else [cur.reverse]
  | c :: rest, cur =>
    if c.isWhitespace then
      if cur.isEmpty then pysplit_go rest [] else cur.reverse :: pysplit_go rest []
    else pysplit_go rest (c :: cur)

/-- Embeds Python str.split() with no argument: split on whitespace runs,
producing no empty tokens. -/
def pysplit (s : List Char) : List (List Char) := pysplit_go s []

/-- Worker for splitlines: accumulates the current line (reversed). -/
def splitlines_go : List Char → List Char → List (List Char)
  | [], cur => if cur.isEmpty then [] else [cur.reverse]
  | c :: rest, cur =>
    if c = '\n' then cur.reverse :: splitlines_go rest []
    else splitlines_go rest (c :: cur)

/-- Embeds Python str.splitlines() for newline-separated text: a trailing
newline produces no empty final line and the empty string has no lines. -/
def splitlines (s : List Char) : List (List Char) := splitlines_go s []

/-- Tests whether a character is one of the three tile emojis. -/
def is_tile (c : Char) : Bool := c == EMOJI_GREEN || c == EMOJI_YELLOW || c == EMOJI_GRAY

/-- Character class of group 1 of the tile regex: tiles and whitespace. -/
def tile_or_ws (c : Char) : Bool := is_tile c || c.isWhitespace

/-- Character class of group 2 of the tile regex: ASCII letters and whitespace. -/
def word_or_ws (c : Char) : Bool := c.isAlpha || c.isWhitespace

/-- Embeds the anchored regex match of parse_line: group 1 is at least five
tile-or-whitespace characters, then at least one whitespace, then group 2 is
at least three letter-or-whitespace characters reaching the end. The split
point is found by search; every successful split yields the same tiles
(group 1 holds no letters) and the same letters (group 2 holds no tiles), so
the greedy split of the Python engine gives the same downstream result. -/
def emoji_match (s : List Char) : Option (List Char × List Char) :=
  (List.range (s.length + 1)).findSome? fun i =>
    (List.range (s.length + 1)).findSome? fun j =>
      if 5 ≤ i ∧ i < j ∧ (s.take i).all tile_or_ws ∧
          ((s.drop i).take (j - i)).all Char.isWhitespace ∧
          3 ≤ (s.drop j).length ∧ (s.drop j).all word_or_ws then
        some (s.take i, s.drop j)
      else none

/-- Uppercases a token, embedding str.upper() on ASCII. -/
def upper_tok (t : List Char) : List Char := t.map Char.toUpper

/-- Embeds the membership test t.upper() in VALID_FB for a token. -/
def in_valid_fb (t : List Char) : Bool :=
  upper_tok t == ['G'] || upper_tok t == ['Y'] || upper_tok t == ['B']

/-- Embeds parse_line. The three branches mirror the source in order:
tile regex, the two-token shorthand branch, the spaced branch. The
shorthand branch tests len(toks) >= 2 and len(toks) == 5 and then evaluates
set(toks.upper()); toks is a list, which has no attribute upper, so
reaching that conjunct raises AttributeError. The spaced branch strips the
word from toks[4], which is one of the five single-letter feedback tokens. -/
def parse_line (line : List Char) : Except PyError (Option Guess) :=
  let s := pystrip (normalize_text line)
  if s.isEmpty then Except.ok none else
  let viaTiles : Option Guess :=
    match emoji_match s with
    | some (tiles_raw, word_raw) =>
      let tiles := tiles_raw.filter is_tile
      if tiles.length = 5 then
        let fb := tiles.map fun ch =>
          if ch == EMOJI_GREEN then 'G' else if ch == EMOJI_YELLOW then 'Y' else 'B'
        let word := strip_to_ascii_letters word_raw
        if word.length = 5 then some (word, fb) else none
      else none
    | none => none
  match viaTiles with
  | some p => Except.ok (some p)
  | none =>
    let toks := pysplit s
    if 2 ≤ toks.length ∧ toks.length = 5 then
      Except.error PyError.attributeError
    else if 6 ≤ toks.length ∧ (toks.take 5).all in_valid_fb then
      let word := strip_to_ascii_letters (toks.getD 4 [])
      if word.length = 5 then
        Except.ok (some (word, ((toks.take 5).map upper_tok).flatten))
      else Except.ok none
    else Except.ok none

/-- Embeds extract_guess_pairs_from_text: parse every line, keep the pairs,
propagate any exception a line raises, and raise ValueError when no line
parsed. -/
def extract_guess_pairs_from_text (text : List Char) : Except PyError (List Guess) :=
  match (splitlines text).foldlM (fun pairs line =>
      match parse_line line with
      | Except.error e => Except.error e
      | Except.ok none => Except.ok pairs
      | Except.ok (some p) => Except.ok (pairs ++ [p])) ([] : List Guess) with
  | Except.error e => Except.error e
  | Except.ok pairs =>
    if pairs.isEmpty then Except.error PyError.valueError else Except.ok pairs

/-- Accumulated constraint set, mirroring the four dictionaries built by
accumulate_constraints. -/
structure Constraints where
  greens : List (Nat × Char)
  yellows_not_pos : List (Char × List Nat)
  min_counts : List (Char × Nat)
  max_counts : List (Char × Nat)
deriving DecidableEq, Repr

/-- Tally of Correct and Present marks of letter l in one guess, embedding
the per-guess Counter gy_counts. -/
def gy_count (w fb : List Char) (l : Char) : Nat :=
  (w.zip fb).countP fun p => p.1 == l && (p.2 == 'G' || p.2 == 'Y')

/-- Update for one enumerated (position, (letter, flag)) entry of a guess:
a G flag writes the letter into greens at that position. -/
def green_upd (acc : List (Nat × Char)) (e : Nat × (Char × Char)) : List (Nat × Char) :=
  if e.2.2 == 'G' then aset e.1 e.2.1 acc else acc

/-- Embeds the greens updates of one guess: every position marked G writes
its letter into the dictionary. -/
def step_greens (w fb : List Char) (g : List (Nat × Char)) : List (Nat × Char) :=
  ((w.zip fb).enum).foldl green_upd g

/-- Adds one banned position for a letter, embedding
yellows_not_pos[ch].add(i) on a defaultdict of sets (sets are embedded as
duplicate-free lists compared by membership). -/
def yadd (ch : Char) (i : Nat) (y : List (Char × List Nat)) : List (Char × List Nat) :=
  let s := (alookup ch y).getD []
  aset ch (if i ∈ s then s else s ++ [i]) y

/-- Update for one enumerated entry of a guess: a Y flag bans the position
for the letter. -/
def yellow_upd (acc : List (Char × List Nat)) (e : Nat × (Char × Char)) : List (Char × List Nat) :=
  if e.2.2 == 'Y' then yadd e.2.1 e.1 acc else acc

/-- Embeds the yellow updates of one guess: every position marked Y bans
that position for its letter. -/
def step_yellows (w fb : List Char) (y : List (Char × List Nat)) : List (Char × List Nat) :=
  ((w.zip fb).enum).foldl yellow_upd y

/-- First-occurrence deduplication, embedding the key order of a Counter
or of dict.fromkeys. -/
def first_uniq (l : List Char) : List Char :=
  l.foldl (fun acc c => if c ∈ acc then acc else acc ++ [c]) []

/-- Keys of the per-guess Counter gy_counts: letters with at least one
Correct or Present mark, in first-mark order. -/
def gy_keys (w fb : List Char) : List Char :=
  first_uniq (((w.zip fb).filter fun p => p.2 == 'G' || p.2 == 'Y').map Prod.fst)

/-- Update of the min dictionary for one letter of gy_counts. -/
def min_upd (w fb : List Char) (acc : List (Char × Nat)) (l : Char) : List (Char × Nat) :=
  let r := gy_count w fb l
  if r > (alookup l acc).getD 0 then aset l r acc else acc

/-- Embeds the min merge of one guess: for every letter of gy_counts, raise
the stored minimum to the tally when the tally is larger. -/
def step_min (w fb : List Char) (m : List (Char × Nat)) : List (Char × Nat) :=
  (gy_keys w fb).foldl (min_upd w fb) m

/-- Update of the max dictionary for one letter of the guessed word. -/
def max_upd (w fb : List Char) (acc : List (Char × Nat)) (l : Char) : List (Char × Nat) :=
  let k := w.count l
  let r := gy_count w fb l
  if r < k then aset l (min ((alookup l acc).getD r) r) acc else acc

/-- Embeds the max merge of one guess: for every letter guessed k times with
only r < k marks, record min(existing or r, r) as the maximum. -/
def step_max (w fb : List Char) (m : List (Char × Nat)) : List (Char × Nat) :=
  (first_uniq w).foldl (max_upd w fb) m

/-- Processes one guess of accumulate_constraints. -/
def step_guess (c : Constraints) (g : Guess) : Constraints :=
  { greens := step_greens g.1 g.2 c.greens
    yellows_not_pos := step_yellows g.1 g.2 c.yellows_not_pos
    min_counts := step_min g.1 g.2 c.min_counts
    max_counts := step_max g.1 g.2 c.max_counts }

/-- Embeds accumulate_constraints: fold every guess into the four empty
dictionaries. -/
def accumulate_constraints (gs : List Guess) : Constraints :=
  gs.foldl step_guess ⟨[], [], [], []⟩

/-- Embeds word_satisfies: greens must match, yellow letters must occur and
avoid their banned positions, and the letter counts must respect the min
and max entries. Out-of-range index access (where Python would raise) is
modelled through List.get? and is never reached on five-letter inputs. -/
def word_satisfies (word : List Char) (c : Constraints) : Bool :=
  (c.greens.all fun e =>
    match word.get? e.1 with
    | some ch => ch == e.2
    | none => false)
  && (c.yellows_not_pos.all fun e =>
    word.contains e.1 && e.2.all fun pos =>
      match word.get? pos with
      | some ch => !(ch == e.1)
      | none => true)
  && (c.min_counts.all fun e => e.2 ≤ word.count e.1)
  && (c.max_counts.all fun e => word.count e.1 ≤ e.2)

/-- Embeds Python str.isalpha on the ASCII domain: nonempty and all letters. -/
def py_isalpha (w : List Char) : Bool := !w.isEmpty && w.all Char.isAlpha

/-- Embeds Python str.islower on the ASCII domain: at least one lowercase
letter and no alphabetic character that is not lowercase. -/
def py_islower (w : List Char) : Bool :=
  w.any Char.isLower && w.all fun c => !c.isAlpha || c.isLower

/-- Embeds the word-list filter of WordleSolver.__init__: keep exactly the
entries that already are proper five-letter lowercase words. -/
def sanitize_words (ws : List (List Char)) : List (List Char) :=
  ws.filter fun w => w.length == 5 && py_isalpha w && py_islower w

/-- Result record of WordleSolver.solve, mirroring the returned dictionary. -/
structure SolveResult where
  greens : List (Nat × Char)
  yellows_not_pos : List (Char × List Nat)
  min_counts : List (Char × Nat)
  max_counts : List (Char × Nat)
  candidates : List (List Char)
deriving DecidableEq, Repr

/-- Embeds WordleSolver.solve: accumulate the constraints and filter the
stored word list. -/
def solve (words : List (List Char)) (guesses : List Guess) : SolveResult :=
  let c := accumulate_constraints guesses
  ⟨c.greens, c.yellows_not_pos, c.min_counts, c.max_counts,
    words.filter fun w => word_satisfies w c⟩

/-- Embeds pos_freq of positional_frequencies: how many words carry ch at
position i. -/
def pos_freq (ws : List (List Char)) (i : Nat) (ch : Char) : Nat :=
  ws.countP fun w => w.get? i == some ch

/-- Embeds global_freq of positional_frequencies: total number of
occurrences of ch over all words. -/
def global_freq (ws : List (List Char)) (ch : Char) : Nat :=
  (ws.map fun w => w.count ch).sum

/-- Embeds the score of intelligent_scores for one word over a candidate
set: positional sum, coverage over unique letters, vowel bonus, duplicate
penalty. -/
def intelligent_score (cands : List (List Char)) (w : List Char) : Int :=
  let uniq := first_uniq w
  let posScore : Nat := (w.enum.map fun e => pos_freq cands e.1 e.2).sum
  let covScore : Nat := (uniq.map (global_freq cands)).sum
  let vowelBonus : Nat := (uniq.countP fun ch => (['a', 'e', 'i', 'o', 'u'] : List Char).contains ch) * 50
  let dupPen : Nat := (w.length - uniq.length) * 100
  (posScore : Int) + covScore + vowelBonus - dupPen

/-- Embeds WordleSolver.rank_words. The empty list returns the empty list.
Otherwise the scores are computed and sorted is called with the key
function fun x => (-x[5], x); x is a (word, score) pair of length 2, so the
first key evaluation raises IndexError. -/
def rank_words (words : List (List Char)) : Except PyError (List (List Char × Int)) :=
  if words.isEmpty then Except.ok []
  else
    let _scores := words.map fun w => (w, intelligent_score words w)
    Except.error PyError.indexError

/-! ### Sample inputs used by concrete evaluations -/

/-- Line in the tile-glyph shape. -/
def line_tiles : List Char :=
  ['🟩', '🟨', '🟥', '🟥', '🟨', ' ', 'H', 'E', 'A', 'R', 'T']

/-- Line in the compact letter-code shape. -/
def line_compact : List Char :=
  ['G', 'Y', 'B', 'B', 'Y', ' ', 'C', 'R', 'A', 'N', 'E']

/-- Line in the spaced letter-code shape. -/
def line_spaced : List Char :=
  ['G', ' ', 'Y', ' ', 'B', ' ', 'B', ' ', 'Y', ' ', 'A', 'U', 'D', 'I', 'O']

/-- Line that splits into exactly five whitespace-separated tokens. -/
def line_five_tokens : List Char :=
  ['a', ' ', 'b', ' ', 'c', ' ', 'd', ' ', 'e']

/-- Text of the spec scenario, also five whitespace-separated tokens. -/
def text_no_guess : List Char :=
  ['n', 'o', 't', ' ', 'a', ' ', 'g', 'u', 'e', 's', 's', ' ', 'a', 't', ' ', 'a', 'l', 'l']

/-- Word crane. -/
def w_crane : List Char := ['c', 'r', 'a', 'n', 'e']

/-- Word heart. -/
def w_heart : List Char := ['h', 'e', 'a', 'r', 't']

/-- Word trace. -/
def w_trace : List Char := ['t', 'r', 'a', 'c', 'e']

/-- Word react. -/
def w_react : List Char := ['r', 'e', 'a', 'c', 't']

/-- Feedback Correct,Absent,Absent,Absent,Absent. -/
def fb_gbbbb : List Char := ['G', 'B', 'B', 'B', 'B']

/-- Word list of the end-to-end spec scenario. -/
def scenario_words : List (List Char) := [w_crane, w_heart, w_trace, w_react]

deriving instance DecidableEq for Except

/-! ### General dictionary lemmas -/

/-- Lookup after assignment: the assigned key reads the new value, every
other key is unchanged. -/
theorem alookup_aset {K V : Type} [DecidableEq K] (k k' : K) (v : V) (d : List (K × V)) :
    alookup k' (aset k v d) = if k = k' then some v else alookup k' d := by
  induction d with
  | nil => simp [aset, alookup]
  | cons hd tl ih =>
    obtain ⟨a, b⟩ := hd
    by_cases h1 : a = k <;> by_cases h2 : k = k' <;>
      simp_all [aset, alookup]

/-! ### Claim C1, C3: parse_line on the three documented shapes -/

/-- C1: of the three documented line shapes only the tile-glyph shape
parses. The compact shorthand line GYBBY CRANE and the spaced line
G Y B B Y AUDIO are both documented to parse, yet the code returns None for
them: the shorthand branch requires five whitespace tokens instead of two,
and the spaced branch strips the word from the fifth feedback token. -/
theorem parse_line_three_shapes :
    parse_line line_tiles =
      Except.ok (some (['h', 'e', 'a', 'r', 't'], ['G', 'Y', 'B', 'B', 'Y'])) ∧
    parse_line line_compact = Except.ok none ∧
    parse_line line_spaced = Except.ok none := by
  refine ⟨by decide, by decide, by decide⟩

/-- C3: a line of exactly five whitespace-separated tokens is not rejected
silently; the shorthand branch evaluates toks.upper() on a list and the
parser raises AttributeError. -/
theorem parse_line_five_tokens_raises :
    parse_line line_five_tokens = Except.error PyError.attributeError := by
  decide

/-! ### Claim C4: extract_guess_pairs_from_text error behavior -/

/-- C4: the empty text raises the no-valid-lines ValueError, but the text
"not a guess at all" raises AttributeError instead, because its single line
splits into exactly five tokens and the parser crashes on it. -/
theorem extract_guess_pairs_errors :
    extract_guess_pairs_from_text [] = Except.error PyError.valueError ∧
    extract_guess_pairs_from_text text_no_guess = Except.error PyError.attributeError := by
  refine ⟨by decide, by decide⟩

/-! ### Claim C2: rank_words -/

/-- C2: ranking the empty list returns the empty list, but ranking any
nonempty list raises IndexError because the sort key reads element 5 of a
two-element (word, score) pair. -/
theorem rank_words_raises :
    rank_words [] = Except.ok [] ∧
    rank_words [w_crane] = Except.error PyError.indexError := by
  refine ⟨by decide, by decide⟩

/-! ### Claim C8: the crane end-to-end scenario -/

/-- C8 counterexample: in the spec scenario the word crane is not among the
candidates, contradicting the claimed candidate set consisting of crane. -/
theorem solve_crane_not_candidate :
    ¬ (w_crane ∈ (solve scenario_words [(w_crane, fb_gbbbb)]).candidates) := by
  decide

/-- C8 amended: the scenario produces greens with c required at position 0
and an empty candidate list, because the four gray marks cap the counts of
r, a, n, e at zero and crane itself contains them. -/
theorem solve_crane_eval :
    (solve scenario_words [(w_crane, fb_gbbbb)]).greens = [(0, 'c')] ∧
    (solve scenario_words [(w_crane, fb_gbbbb)]).max_counts =
      [('r', 0), ('a', 0), ('n', 0), ('e', 0)] ∧
    (solve scenario_words [(w_crane, fb_gbbbb)]).candidates = [] := by
  refine ⟨by decide, by decide, by decide⟩

/-! ### Claim C9: the word-list sanitizer -/

/-- C9 counterexample: a raw line holding a five-letter uppercase word does
not appear downcased in the sanitized list; the filter drops it. -/
theorem sanitize_words_drops_uppercase :
    ¬ (['h', 'e', 'a', 'r', 't'] ∈ sanitize_words [['H', 'E', 'A', 'R', 'T']]) := by
  decide

/-- C9 amended: the sanitizer transforms nothing; it retains exactly the
input entries that already are five-letter lowercase alphabetic words. -/
theorem sanitize_words_mem_iff (w : List Char) (ws : List (List Char)) :
    w ∈ sanitize_words ws ↔
      w ∈ ws ∧ w.length = 5 ∧ py_isalpha w = true ∧ py_islower w = true := by
  simp [sanitize_words, List.mem_filter, and_assoc]

/-! ### Claim C10: solve with no guesses -/

/-- C10: with no guesses the constraint dictionaries are all empty and the
candidate list is the stored word list itself, in order. -/
theorem solve_no_guesses (ws : List (List Char)) :
    solve ws [] = ⟨[], [], [], [], ws⟩ := by
  simp only [solve, accumulate_constraints, List.foldl_nil]
  refine congrArg _ ?_
  have h : ∀ w : List Char, word_satisfies w ⟨[], [], [], []⟩ = true := by
    intro w; rfl
  calc ws.filter (fun w => word_satisfies w ⟨[], [], [], []⟩)
      = ws.filter (fun _ => true) := by
        refine List.filter_congr ?_
        intro w _; exact h w
    _ = ws := List.filter_true ws

/-! ### Characterizing the per-guess constraint updates -/

/-- Green mark of a guess at a position: the letter at that position when
the feedback there is G. -/
def green_at (w fb : List Char) (i : Nat) : Option Char :=
  match (w.zip fb).get? i with
  | some p => if p.2 = 'G' then some p.1 else none
  | none => none

/-- Lookup after folding the green updates over an enumerated suffix. -/
theorem greens_fold_enumFrom (L : List (Char × Char)) :
    ∀ (n j : Nat) (g0 : List (Nat × Char)),
      alookup j ((List.enumFrom n L).foldl green_upd g0)
        = match (if n ≤ j then L.get? (j - n) else none) with
          | some p => if p.2 = 'G' then some p.1 else alookup j g0
          | none => alookup j g0 := by
  induction L with
  | nil =>
    intro n j g0
    simp [List.enumFrom]
  | cons p t ih =>
    intro n j g0
    rw [List.enumFrom_cons, List.foldl_cons, ih]
    have hupd : alookup j (green_upd g0 (n, p))
        = if n = j then (if p.2 = 'G' then some p.1 else alookup j g0)
          else alookup j g0 := by
      by_cases hG : p.2 = 'G'
      · simp [green_upd, hG, alookup_aset]
      · have : (p.2 == 'G') = false := by simp [hG]
        simp [green_upd, this, hG]
    rcases Nat.lt_trichotomy j n with hlt | heq | hgt
    · have h1 : ¬ (n + 1 ≤ j) := by omega
      have h2 : ¬ (n ≤ j) := by omega
      have h3 : n ≠ j := by omega
      simp only [h1, if_false, h2, hupd, h3]
    · subst heq
      have h1 : ¬ (j + 1 ≤ j) := by omega
      have h2 : j ≤ j := le_refl j
      have h3 : j - j = 0 := by omega
      simp only [h1, if_false, hupd, if_pos rfl, h2, if_true, h3,
        List.get?_cons_zero]
    · have h1 : n + 1 ≤ j := by omega
      have h2 : n ≤ j := by omega
      have h3 : n ≠ j := by omega
      have h4 : j - n = (j - (n + 1)) + 1 := by omega
      simp only [h1, if_true, h2, hupd, h3, if_false, h4, List.get?_cons_succ]

/-- Lookup in the greens dictionary after one guess: the green mark of the
guess wins, otherwise the previous entry remains. -/
theorem step_greens_lookup (w fb : List Char) (g0 : List (Nat × Char)) (j : Nat) :
    alookup j (step_greens w fb g0)
      = match green_at w fb j with
        | some ch => some ch
        | none => alookup j g0 := by
  have h0 : (w.zip fb).enum = List.enumFrom 0 (w.zip fb) := rfl
  rw [step_greens, h0, greens_fold_enumFrom]
  have h1 : 0 ≤ j := Nat.zero_le j
  simp only [h1, if_true, Nat.sub_zero, green_at]
  rcases hg : (w.zip fb).get? j with _ | p
  · simp
  · by_cases hG : p.2 = 'G' <;> simp [hG]

/-- Banned-position set stored for a letter (empty when the key is absent;
keys are only ever created together with a first banned position). -/
def get_bans (y : List (Char × List Nat)) (ch : Char) : List Nat :=
  (alookup ch y).getD []

/-- Yellow mark of a guess: the guess flags letter ch as Present at
position i. -/
def yellow_at (w fb : List Char) (ch : Char) (i : Nat) : Prop :=
  match (w.zip fb).get? i with
  | some p => p.1 = ch ∧ p.2 = 'Y'
  | none => False

/-- Membership in the ban sets after one yadd. -/
theorem mem_yadd (ch ch' : Char) (i pos : Nat) (y : List (Char × List Nat)) :
    pos ∈ get_bans (yadd ch i y) ch'
      ↔ pos ∈ get_bans y ch' ∨ (ch' = ch ∧ pos = i) := by
  simp only [yadd, get_bans]
  rw [alookup_aset]
  rcases eq_or_ne ch ch' with rfl | h
  · rw [if_pos rfl]
    by_cases hi : i ∈ (alookup ch y).getD []
    · rw [if_pos hi]
      simp only [Option.getD_some]
      constructor
      · intro hm; exact Or.inl hm
      · rintro (hm | ⟨-, rfl⟩)
        · exact hm
        · exact hi
    · rw [if_neg hi]
      simp only [Option.getD_some, List.mem_append, List.mem_singleton]
      constructor
      · rintro (hm | rfl)
        · exact Or.inl hm
        · exact Or.inr ⟨by trivial, rfl⟩
      · rintro (hm | ⟨-, rfl⟩)
        · exact Or.inl hm
        · exact Or.inr rfl
  · rw [if_neg h]
    constructor
    · intro hm; exact Or.inl hm
    · rintro (hm | ⟨hh, rfl⟩)
      · exact hm
      · exact absurd hh.symm h

/-- Membership in the ban sets after folding the yellow updates over an
enumerated suffix. -/
theorem yellows_fold_enumFrom (L : List (Char × Char)) :
    ∀ (n : Nat) (y0 : List (Char × List Nat)) (ch : Char) (pos : Nat),
      pos ∈ get_bans ((List.enumFrom n L).foldl yellow_upd y0) ch
        ↔ pos ∈ get_bans y0 ch ∨
          (n ≤ pos ∧ (match L.get? (pos - n) with
            | some p => p.1 = ch ∧ p.2 = 'Y'
            | none => False)) := by
  induction L with
  | nil =>
    intro n y0 ch pos
    simp [List.enumFrom]
  | cons p t ih =>
    intro n y0 ch pos
    rw [List.enumFrom_cons, List.foldl_cons, ih]
    have hupd : pos ∈ get_bans (yellow_upd y0 (n, p)) ch
        ↔ pos ∈ get_bans y0 ch ∨ (p.2 = 'Y' ∧ ch = p.1 ∧ pos = n) := by
      by_cases hY : p.2 = 'Y'
      · have hb : (p.2 == 'Y') = true := by simp [hY]
        simp only [yellow_upd, hb, if_true, mem_yadd]
        tauto
      · have hb : (p.2 == 'Y') = false := by simp [hY]
        simp only [yellow_upd, hb, if_false]
        tauto
    rw [hupd]
    rcases Nat.lt_trichotomy pos n with hlt | heq | hgt
    · have h1 : ¬ (n + 1 ≤ pos) := by omega
      have h2 : ¬ (n ≤ pos) := by omega
      have h3 : pos ≠ n := by omega
      simp only [h1, false_and, or_false, h2, h3, and_false]
    · subst heq
      have h1 : ¬ (pos + 1 ≤ pos) := by omega
      have h2 : pos ≤ pos := le_refl pos
      have h3 : pos - pos = 0 := by omega
      simp only [h1, false_and, or_false, h2, true_and, h3, List.get?_cons_zero]
      tauto
    · have h1 : n + 1 ≤ pos := by omega
      have h2 : n ≤ pos := by omega
      have h3 : pos ≠ n := by omega
      have h4 : pos - n = (pos - (n + 1)) + 1 := by omega
      simp only [h1, true_and, h2, h3, and_false, or_false, h4, List.get?_cons_succ]

/-- Membership in the ban sets after one guess: a position is banned for a
letter exactly when it was banned before or the guess yellow-marks the
letter there. -/
theorem step_yellows_mem (w fb : List Char) (y0 : List (Char × List Nat))
    (ch : Char) (pos : Nat) :
    pos ∈ get_bans (step_yellows w fb y0) ch
      ↔ pos ∈ get_bans y0 ch ∨ yellow_at w fb ch pos := by
  have h0 : (w.zip fb).enum = List.enumFrom 0 (w.zip fb) := rfl
  rw [step_yellows, h0, yellows_fold_enumFrom]
  have h1 : 0 ≤ pos := Nat.zero_le pos
  simp only [h1, true_and, Nat.sub_zero, yellow_at]

/-- Membership through the first-occurrence deduplication fold. -/
theorem mem_foldl_uniq (xs : List Char) :
    ∀ (acc : List Char) (x : Char),
      x ∈ xs.foldl (fun a c => if c ∈ a then a else a ++ [c]) acc ↔ x ∈ acc ∨ x ∈ xs := by
  induction xs with
  | nil => intro acc x; simp
  | cons c t ih =>
    intro acc x
    rw [List.foldl_cons]
    by_cases hc : c ∈ acc
    · rw [if_pos hc, ih, List.mem_cons]
      constructor
      · rintro (h | h)
        · exact Or.inl h
        · exact Or.inr (Or.inr h)
      · rintro (h | rfl | h)
        · exact Or.inl h
        · exact Or.inl hc
        · exact Or.inr h
    · rw [if_neg hc, ih, List.mem_append, List.mem_singleton, List.mem_cons]
      tauto

/-- Membership in first_uniq is membership in the source list. -/
theorem mem_first_uniq (x : Char) (xs : List Char) :
    x ∈ first_uniq xs ↔ x ∈ xs := by
  rw [first_uniq, mem_foldl_uniq]
  simp

/-- The first-occurrence deduplication fold keeps the accumulator
duplicate-free. -/
theorem nodup_foldl_uniq (xs : List Char) :
    ∀ (acc : List Char), acc.Nodup →
      (xs.foldl (fun a c => if c ∈ a then a else a ++ [c]) acc).Nodup := by
  induction xs with
  | nil => intro acc h; exact h
  | cons c t ih =>
    intro acc h
    rw [List.foldl_cons]
    by_cases hc : c ∈ acc
    · rw [if_pos hc]; exact ih acc h
    · rw [if_neg hc]
      refine ih _ ?_
      simp [List.nodup_append, h, hc]

/-- first_uniq produces a duplicate-free list. -/
theorem first_uniq_nodup (xs : List Char) : (first_uniq xs).Nodup :=
  nodup_foldl_uniq xs [] List.nodup_nil

/-- A letter with a positive tally is a key of the per-guess Counter. -/
theorem mem_gy_keys_of_pos (w fb : List Char) (l : Char)
    (h : 0 < gy_count w fb l) : l ∈ gy_keys w fb := by
  rw [gy_count] at h
  obtain ⟨p, hp, hpred⟩ := List.countP_pos_iff.mp h
  have hl : p.1 = l ∧ (p.2 == 'G' || p.2 == 'Y') = true := by
    simpa using hpred
  rw [gy_keys, mem_first_uniq]
  exact List.mem_map.mpr ⟨p, List.mem_filter.mpr ⟨hp, hl.2⟩, hl.1⟩

/-- Folding min updates over keys avoiding l leaves the entry of l alone. -/
theorem foldl_min_upd_not_mem (w fb : List Char) (K : List Char) :
    ∀ (m : List (Char × Nat)) (l : Char), l ∉ K →
      alookup l (K.foldl (min_upd w fb) m) = alookup l m := by
  induction K with
  | nil => intro m l _; rfl
  | cons k t ih =>
    intro m l hl
    have hlk : ¬ (l = k ∨ l ∈ t) := by simpa [List.mem_cons] using hl
    push_neg at hlk
    rw [List.foldl_cons, ih _ _ hlk.2]
    simp only [min_upd]
    split
    · rw [alookup_aset, if_neg (fun hh => hlk.1 hh.symm)]
    · rfl

/-- Folding max updates over keys avoiding l leaves the entry of l alone. -/
theorem foldl_max_upd_not_mem (w fb : List Char) (K : List Char) :
    ∀ (m : List (Char × Nat)) (l : Char), l ∉ K →
      alookup l (K.foldl (max_upd w fb) m) = alookup l m := by
  induction K with
  | nil => intro m l _; rfl
  | cons k t ih =>
    intro m l hl
    have hlk : ¬ (l = k ∨ l ∈ t) := by simpa [List.mem_cons] using hl
    push_neg at hlk
    rw [List.foldl_cons, ih _ _ hlk.2]
    simp only [max_upd]
    split
    · rw [alookup_aset, if_neg (fun hh => hlk.1 hh.symm)]
    · rfl

/-- Lookup in the min dictionary after one guess: the tally wins when it
beats the stored value (absent entries reading as zero). -/
theorem step_min_lookup (w fb : List Char) (m : List (Char × Nat)) (l : Char) :
    alookup l (step_min w fb m)
      = if gy_count w fb l > (alookup l m).getD 0 then some (gy_count w fb l)
        else alookup l m := by
  by_cases hm : l ∈ gy_keys w fb
  · obtain ⟨K1, K2, hK⟩ := List.append_of_mem hm
    have hnd : (gy_keys w fb).Nodup := first_uniq_nodup _
    rw [hK, List.nodup_append, List.nodup_cons] at hnd
    obtain ⟨-, ⟨hlK2, -⟩, hdisj⟩ := hnd
    have h1 : l ∉ K1 := fun hmem => hdisj hmem (List.mem_cons_self l K2)
    rw [step_min, hK, List.foldl_append, List.foldl_cons,
      foldl_min_upd_not_mem w fb K2 _ l hlK2]
    have hA : alookup l (K1.foldl (min_upd w fb) m) = alookup l m :=
      foldl_min_upd_not_mem w fb K1 m l h1
    rw [← hA]
    simp only [min_upd]
    split
    · rw [alookup_aset, if_pos rfl]
    · rfl
  · have h0 : gy_count w fb l = 0 := by
      by_contra h
      exact hm (mem_gy_keys_of_pos w fb l (Nat.pos_of_ne_zero h))
    rw [step_min, foldl_min_upd_not_mem w fb _ m l hm, h0]
    have hneg : ¬ (0 > (alookup l m).getD 0) := by omega
    rw [if_neg hneg]

/-- Lookup in the max dictionary after one guess: a surplus guess caps the
entry at the tally, merged by min with the stored value. -/
theorem step_max_lookup (w fb : List Char) (m : List (Char × Nat)) (l : Char) :
    alookup l (step_max w fb m)
      = if gy_count w fb l < w.count l
        then some (min ((alookup l m).getD (gy_count w fb l)) (gy_count w fb l))
        else alookup l m := by
  by_cases hm : l ∈ first_uniq w
  · obtain ⟨K1, K2, hK⟩ := List.append_of_mem hm
    have hnd : (first_uniq w).Nodup := first_uniq_nodup _
    rw [hK, List.nodup_append, List.nodup_cons] at hnd
    obtain ⟨-, ⟨hlK2, -⟩, hdisj⟩ := hnd
    have h1 : l ∉ K1 := fun hmem => hdisj hmem (List.mem_cons_self l K2)
    rw [step_max, hK, List.foldl_append, List.foldl_cons,
      foldl_max_upd_not_mem w fb K2 _ l hlK2]
    have hA : alookup l (K1.foldl (max_upd w fb) m) = alookup l m :=
      foldl_max_upd_not_mem w fb K1 m l h1
    rw [← hA]
    simp only [max_upd]
    split
    · rw [alookup_aset, if_pos rfl]
    · rfl
  · have hw : l ∉ w := fun h => hm ((mem_first_uniq l w).mpr h)
    have h0 : w.count l = 0 := by
      rw [List.count_eq_zero]
      exact hw
    rw [step_max, foldl_max_upd_not_mem w fb _ m l hm, h0]
    have hneg : ¬ (gy_count w fb l < 0) := by omega
    rw [if_neg hneg]

/-! ### Order insensitivity of accumulation -/

/-- Equality of two constraint sets as Python dictionaries: pointwise on
lookups, with the ban sets compared by membership (they are Python sets). -/
def ConsEquiv (c1 c2 : Constraints) : Prop :=
  (∀ i, alookup i c1.greens = alookup i c2.greens) ∧
  (∀ ch pos, pos ∈ get_bans c1.yellows_not_pos ch ↔ pos ∈ get_bans c2.yellows_not_pos ch) ∧
  (∀ l, alookup l c1.min_counts = alookup l c2.min_counts) ∧
  (∀ l, alookup l c1.max_counts = alookup l c2.max_counts)

/-- Constraint-set equality is reflexive. -/
theorem cons_equiv_refl (c : Constraints) : ConsEquiv c c :=
  ⟨fun _ => rfl, fun _ _ => Iff.rfl, fun _ => rfl, fun _ => rfl⟩

/-- Constraint-set equality is transitive. -/
theorem cons_equiv_trans {a b c : Constraints} (h1 : ConsEquiv a b) (h2 : ConsEquiv b c) :
    ConsEquiv a c :=
  ⟨fun i => (h1.1 i).trans (h2.1 i),
   fun ch pos => (h1.2.1 ch pos).trans (h2.2.1 ch pos),
   fun l => (h1.2.2.1 l).trans (h2.2.2.1 l),
   fun l => (h1.2.2.2 l).trans (h2.2.2.2 l)⟩

/-- Lookup-level form of the min merge of one guess. -/
def opt_min_upd (r : Nat) (o : Option Nat) : Option Nat :=
  if r > o.getD 0 then some r else o

/-- Lookup-level form of the max merge of one guess; r is the tally and k
the number of guessed copies. -/
def opt_max_upd (r k : Nat) (o : Option Nat) : Option Nat :=
  if r < k then some (min (o.getD r) r) else o

/-- Min merges of two guesses commute. -/
theorem opt_min_upd_comm (r1 r2 : Nat) (o : Option Nat) :
    opt_min_upd r1 (opt_min_upd r2 o) = opt_min_upd r2 (opt_min_upd r1 o) := by
  rcases o with _ | v <;> simp [opt_min_upd] <;> split_ifs <;> simp_all <;> omega

/-- Max merges of two guesses commute. -/
theorem opt_max_upd_comm (r1 k1 r2 k2 : Nat) (o : Option Nat) :
    opt_max_upd r1 k1 (opt_max_upd r2 k2 o) = opt_max_upd r2 k2 (opt_max_upd r1 k1 o) := by
  rcases o with _ | v <;> simp [opt_max_upd] <;> split_ifs <;> simp_all <;> omega

/-- Two guesses agree on greens when they never green-mark different
letters at the same position. -/
def greens_agree (a b : Guess) : Prop :=
  ∀ i ch1 ch2, green_at a.1 a.2 i = some ch1 → green_at b.1 b.2 i = some ch2 → ch1 = ch2

/-- Decidable bounded check of greens_agree. -/
def greens_agree_check (a b : Guess) : Bool :=
  (List.range ((a.1.zip a.2).length)).all fun i =>
    match green_at a.1 a.2 i, green_at b.1 b.2 i with
    | some c1, some c2 => c1 == c2
    | _, _ => true

/-- A green mark exists only at an index of the zipped guess. -/
theorem green_at_lt (w fb : List Char) (i : Nat) (ch : Char)
    (h : green_at w fb i = some ch) : i < (w.zip fb).length := by
  rw [green_at] at h
  rcases hg : (w.zip fb).get? i with _ | p
  · rw [hg] at h; exact absurd h (by simp)
  · obtain ⟨hlt, -⟩ := List.get?_eq_some.mp hg
    exact hlt

/-- The bounded check implies greens_agree. -/
theorem greens_agree_of_check (a b : Guess) (h : greens_agree_check a b = true) :
    greens_agree a b := by
  intro i ch1 ch2 h1 h2
  have hi : i < (a.1.zip a.2).length := green_at_lt _ _ _ _ h1
  have h3 := (List.all_eq_true.mp h) i (List.mem_range.mpr hi)
  simp only [h1, h2] at h3
  exact eq_of_beq h3

/-- Processing the same guess preserves constraint-set equality. -/
theorem step_guess_congr (c1 c2 : Constraints) (g : Guess) (h : ConsEquiv c1 c2) :
    ConsEquiv (step_guess c1 g) (step_guess c2 g) := by
  obtain ⟨hg, hy, hmin, hmax⟩ := h
  refine ⟨?_, ?_, ?_, ?_⟩
  · intro i
    show alookup i (step_greens g.1 g.2 c1.greens) = alookup i (step_greens g.1 g.2 c2.greens)
    rw [step_greens_lookup, step_greens_lookup, hg i]
  · intro ch pos
    show pos ∈ get_bans (step_yellows g.1 g.2 c1.yellows_not_pos) ch
      ↔ pos ∈ get_bans (step_yellows g.1 g.2 c2.yellows_not_pos) ch
    rw [step_yellows_mem, step_yellows_mem]
    exact or_congr_left (hy ch pos)
  · intro l
    show alookup l (step_min g.1 g.2 c1.min_counts) = alookup l (step_min g.1 g.2 c2.min_counts)
    rw [step_min_lookup, step_min_lookup, hmin l]
  · intro l
    show alookup l (step_max g.1 g.2 c1.max_counts) = alookup l (step_max g.1 g.2 c2.max_counts)
    rw [step_max_lookup, step_max_lookup, hmax l]

/-- Two adjacent guesses can be swapped when their greens agree. -/
theorem step_guess_swap (c : Constraints) (a b : Guess) (hab : greens_agree a b) :
    ConsEquiv (step_guess (step_guess c a) b) (step_guess (step_guess c b) a) := by
  refine ⟨?_, ?_, ?_, ?_⟩
  · intro i
    show alookup i (step_greens b.1 b.2 (step_greens a.1 a.2 c.greens))
      = alookup i (step_greens a.1 a.2 (step_greens b.1 b.2 c.greens))
    rw [step_greens_lookup, step_greens_lookup, step_greens_lookup, step_greens_lookup]
    rcases h1 : green_at a.1 a.2 i with _ | ch1 <;>
      rcases h2 : green_at b.1 b.2 i with _ | ch2 <;> simp
    exact (hab i ch1 ch2 h1 h2).symm
  · intro ch pos
    show pos ∈ get_bans (step_yellows b.1 b.2 (step_yellows a.1 a.2 c.yellows_not_pos)) ch
      ↔ pos ∈ get_bans (step_yellows a.1 a.2 (step_yellows b.1 b.2 c.yellows_not_pos)) ch
    rw [step_yellows_mem, step_yellows_mem, step_yellows_mem, step_yellows_mem]
    tauto
  · intro l
    show alookup l (step_min b.1 b.2 (step_min a.1 a.2 c.min_counts))
      = alookup l (step_min a.1 a.2 (step_min b.1 b.2 c.min_counts))
    rw [step_min_lookup, step_min_lookup, step_min_lookup, step_min_lookup]
    exact opt_min_upd_comm (gy_count b.1 b.2 l) (gy_count a.1 a.2 l) (alookup l c.min_counts)
  · intro l
    show alookup l (step_max b.1 b.2 (step_max a.1 a.2 c.max_counts))
      = alookup l (step_max a.1 a.2 (step_max b.1 b.2 c.max_counts))
    rw [step_max_lookup, step_max_lookup, step_max_lookup, step_max_lookup]
    exact opt_max_upd_comm (gy_count b.1 b.2 l) (b.1.count l)
      (gy_count a.1 a.2 l) (a.1.count l) (alookup l c.max_counts)

/-- Folding the same guess list preserves constraint-set equality. -/
theorem foldl_step_congr (l : List Guess) :
    ∀ c1 c2, ConsEquiv c1 c2 →
      ConsEquiv (l.foldl step_guess c1) (l.foldl step_guess c2) := by
  induction l with
  | nil => intro c1 c2 h; exact h
  | cons g t ih =>
    intro c1 c2 h
    rw [List.foldl_cons, List.foldl_cons]
    exact ih _ _ (step_guess_congr _ _ g h)

/-- Folding permuted guess lists from equal constraint sets yields equal
constraint sets, provided the guesses pairwise agree on greens. -/
theorem foldl_perm_equiv {l1 l2 : List Guess} (hp : l1.Perm l2) :
    (∀ a ∈ l1, ∀ b ∈ l1, greens_agree a b) →
    ∀ c1 c2, ConsEquiv c1 c2 →
      ConsEquiv (l1.foldl step_guess c1) (l2.foldl step_guess c2) := by
  induction hp with
  | nil => intro _ c1 c2 h; exact h
  | cons x hp ih =>
    intro hc c1 c2 h
    rw [List.foldl_cons, List.foldl_cons]
    refine ih ?_ _ _ (step_guess_congr _ _ x h)
    intro a ha b hb
    exact hc a (List.mem_cons_of_mem x ha) b (List.mem_cons_of_mem x hb)
  | swap x y l =>
    intro hc c1 c2 h
    rw [List.foldl_cons, List.foldl_cons, List.foldl_cons, List.foldl_cons]
    have hyx : greens_agree y x := hc y (by simp) x (by simp)
    have hswap : ConsEquiv (step_guess (step_guess c1 y) x) (step_guess (step_guess c1 x) y) :=
      step_guess_swap c1 y x hyx
    have hcong : ConsEquiv (step_guess (step_guess c1 x) y) (step_guess (step_guess c2 x) y) :=
      step_guess_congr _ _ y (step_guess_congr _ _ x h)
    exact foldl_step_congr l _ _ (cons_equiv_trans hswap hcong)
  | trans hp1 hp2 ih1 ih2 =>
    intro hc c1 c2 h
    refine cons_equiv_trans (ih1 hc c1 c1 (cons_equiv_refl c1)) (ih2 ?_ c1 c2 h)
    intro a ha b hb
    exact hc a (hp1.mem_iff.mpr ha) b (hp1.mem_iff.mpr hb)

/-- Greens-free fragment of constraint-set equality. -/
def ConsEquiv3 (c1 c2 : Constraints) : Prop :=
  (∀ ch pos, pos ∈ get_bans c1.yellows_not_pos ch ↔ pos ∈ get_bans c2.yellows_not_pos ch) ∧
  (∀ l, alookup l c1.min_counts = alookup l c2.min_counts) ∧
  (∀ l, alookup l c1.max_counts = alookup l c2.max_counts)

/-- The greens-free equality is reflexive. -/
theorem cons_equiv3_refl (c : Constraints) : ConsEquiv3 c c :=
  ⟨fun _ _ => Iff.rfl, fun _ => rfl, fun _ => rfl⟩

/-- The greens-free equality is transitive. -/
theorem cons_equiv3_trans {a b c : Constraints} (h1 : ConsEquiv3 a b) (h2 : ConsEquiv3 b c) :
    ConsEquiv3 a c :=
  ⟨fun ch pos => (h1.1 ch pos).trans (h2.1 ch pos),
   fun l => (h1.2.1 l).trans (h2.2.1 l),
   fun l => (h1.2.2 l).trans (h2.2.2 l)⟩

/-- Processing the same guess preserves the greens-free equality. -/
theorem step_guess_congr3 (c1 c2 : Constraints) (g : Guess) (h : ConsEquiv3 c1 c2) :
    ConsEquiv3 (step_guess c1 g) (step_guess c2 g) := by
  obtain ⟨hy, hmin, hmax⟩ := h
  refine ⟨?_, ?_, ?_⟩
  · intro ch pos
    show pos ∈ get_bans (step_yellows g.1 g.2 c1.yellows_not_pos) ch
      ↔ pos ∈ get_bans (step_yellows g.1 g.2 c2.yellows_not_pos) ch
    rw [step_yellows_mem, step_yellows_mem]
    exact or_congr_left (hy ch pos)
  · intro l
    show alookup l (step_min g.1 g.2 c1.min_counts) = alookup l (step_min g.1 g.2 c2.min_counts)
    rw [step_min_lookup, step_min_lookup, hmin l]
  · intro l
    show alookup l (step_max g.1 g.2 c1.max_counts) = alookup l (step_max g.1 g.2 c2.max_counts)
    rw [step_max_lookup, step_max_lookup, hmax l]

/-- Adjacent guesses always swap in the greens-free fragment. -/
theorem step_guess_swap3 (c : Constraints) (a b : Guess) :
    ConsEquiv3 (step_guess (step_guess c a) b) (step_guess (step_guess c b) a) := by
  refine ⟨?_, ?_, ?_⟩
  · intro ch pos
    show pos ∈ get_bans (step_yellows b.1 b.2 (step_yellows a.1 a.2 c.yellows_not_pos)) ch
      ↔ pos ∈ get_bans (step_yellows a.1 a.2 (step_yellows b.1 b.2 c.yellows_not_pos)) ch
    rw [step_yellows_mem, step_yellows_mem, step_yellows_mem, step_yellows_mem]
    tauto
  · intro l
    show alookup l (step_min b.1 b.2 (step_min a.1 a.2 c.min_counts))
      = alookup l (step_min a.1 a.2 (step_min b.1 b.2 c.min_counts))
    rw [step_min_lookup, step_min_lookup, step_min_lookup, step_min_lookup]
    exact opt_min_upd_comm (gy_count b.1 b.2 l) (gy_count a.1 a.2 l) (alookup l c.min_counts)
  · intro l
    show alookup l (step_max b.1 b.2 (step_max a.1 a.2 c.max_counts))
      = alookup l (step_max a.1 a.2 (step_max b.1 b.2 c.max_counts))
    rw [step_max_lookup, step_max_lookup, step_max_lookup, step_max_lookup]
    exact opt_max_upd_comm (gy_count b.1 b.2 l) (b.1.count l)
      (gy_count a.1 a.2 l) (a.1.count l) (alookup l c.max_counts)

/-- Folding the same guess list preserves the greens-free equality. -/
theorem foldl_step_congr3 (l : List Guess) :
    ∀ c1 c2, ConsEquiv3 c1 c2 →
      ConsEquiv3 (l.foldl step_guess c1) (l.foldl step_guess c2) := by
  induction l with
  | nil => intro c1 c2 h; exact h
  | cons g t ih =>
    intro c1 c2 h
    rw [List.foldl_cons, List.foldl_cons]
    exact ih _ _ (step_guess_congr3 _ _ g h)

/-- Folding permuted guess lists yields the same greens-free fragment,
with no side condition. -/
theorem foldl_perm_equiv3 {l1 l2 : List Guess} (hp : l1.Perm l2) :
    ∀ c1 c2, ConsEquiv3 c1 c2 →
      ConsEquiv3 (l1.foldl step_guess c1) (l2.foldl step_guess c2) := by
  induction hp with
  | nil => intro c1 c2 h; exact h
  | cons x hp ih =>
    intro c1 c2 h
    rw [List.foldl_cons, List.foldl_cons]
    exact ih _ _ (step_guess_congr3 _ _ x h)
  | swap x y l =>
    intro c1 c2 h
    rw [List.foldl_cons, List.foldl_cons, List.foldl_cons, List.foldl_cons]
    have hswap : ConsEquiv3 (step_guess (step_guess c1 y) x) (step_guess (step_guess c1 x) y) :=
      step_guess_swap3 c1 y x
    have hcong : ConsEquiv3 (step_guess (step_guess c1 x) y) (step_guess (step_guess c2 x) y) :=
      step_guess_congr3 _ _ y (step_guess_congr3 _ _ x h)
    exact foldl_step_congr3 l _ _ (cons_equiv3_trans hswap hcong)
  | trans hp1 hp2 ih1 ih2 =>
    intro c1 c2 h
    exact cons_equiv3_trans (ih1 c1 c1 (cons_equiv3_refl c1)) (ih2 c1 c2 h)

/-- C5 amended: permuting the guesses always yields the same yellowBans,
minCounts and maxCounts, and also the same greens provided no two guesses
green-mark different letters at the same position; with conflicting greens
the last-written guess wins and order matters. -/
theorem accumulate_constraints_perm_invariant (gs1 gs2 : List Guess)
    (hp : gs1.Perm gs2) :
    (∀ ch pos, pos ∈ get_bans (accumulate_constraints gs1).yellows_not_pos ch
      ↔ pos ∈ get_bans (accumulate_constraints gs2).yellows_not_pos ch) ∧
    (∀ l, alookup l (accumulate_constraints gs1).min_counts
      = alookup l (accumulate_constraints gs2).min_counts) ∧
    (∀ l, alookup l (accumulate_constraints gs1).max_counts
      = alookup l (accumulate_constraints gs2).max_counts) ∧
    ((∀ a ∈ gs1, ∀ b ∈ gs1, greens_agree_check a b = true) →
      ∀ i, alookup i (accumulate_constraints gs1).greens
        = alookup i (accumulate_constraints gs2).greens) := by
  have h3 : ConsEquiv3 (accumulate_constraints gs1) (accumulate_constraints gs2) :=
    foldl_perm_equiv3 hp _ _ (cons_equiv3_refl _)
  refine ⟨h3.1, h3.2.1, h3.2.2, ?_⟩
  intro hc
  exact (foldl_perm_equiv hp
    (fun a ha b hb => greens_agree_of_check a b (hc a ha b hb)) _ _ (cons_equiv_refl _)).1

/-- Guess abcde with only the first letter green. -/
def g_abcde : Guess := (['a', 'b', 'c', 'd', 'e'], fb_gbbbb)

/-- Guess fghij with only the first letter green. -/
def g_fghij : Guess := (['f', 'g', 'h', 'i', 'j'], fb_gbbbb)

/-- C5 counterexample: two guesses with conflicting greens at position 0
give different greens dictionaries under the two orders, so accumulation is
not order-insensitive for every sequence of guesses. -/
theorem accumulate_not_order_insensitive :
    alookup 0 (accumulate_constraints [g_abcde, g_fghij]).greens = some 'f' ∧
    alookup 0 (accumulate_constraints [g_fghij, g_abcde]).greens = some 'a' ∧
    alookup 0 (accumulate_constraints [g_abcde, g_fghij]).greens ≠
      alookup 0 (accumulate_constraints [g_fghij, g_abcde]).greens := by
  refine ⟨by decide, by decide, by decide⟩

/-- Guess crane with only the first letter green. -/
def g_crane_g : Guess := (w_crane, fb_gbbbb)

/-- Guess cloud with first letter green and second letter yellow. -/
def g_cloud : Guess := (['c', 'l', 'o', 'u', 'd'], ['G', 'Y', 'B', 'B', 'B'])

/-- Witness for the amended C5 theorem at a concrete pair of compatible
guesses, instanced at the letter l and position 0. -/
theorem accumulate_perm_invariant_witness :
    alookup 'l' (accumulate_constraints [g_crane_g, g_cloud]).min_counts
      = alookup 'l' (accumulate_constraints [g_cloud, g_crane_g]).min_counts ∧
    alookup 0 (accumulate_constraints [g_crane_g, g_cloud]).greens
      = alookup 0 (accumulate_constraints [g_cloud, g_crane_g]).greens :=
  ⟨(accumulate_constraints_perm_invariant [g_crane_g, g_cloud] [g_cloud, g_crane_g]
      (List.Perm.swap g_cloud g_crane_g [])).2.1 'l',
   (accumulate_constraints_perm_invariant [g_crane_g, g_cloud] [g_cloud, g_crane_g]
      (List.Perm.swap g_cloud g_crane_g [])).2.2.2 (by decide) 0⟩

/-! ### Claims C6 and C7: min and max bounds -/

/-- C6 amended: after accumulating a single guess, a letter carrying both a
min and a max entry carries the same value in both, so the min is at most
the max; across several mutually inconsistent guesses the bounds can cross. -/
theorem single_guess_min_le_max (g : Guess) (l : Char) (m M : Nat)
    (hm : alookup l (accumulate_constraints [g]).min_counts = some m)
    (hM : alookup l (accumulate_constraints [g]).max_counts = some M) :
    m ≤ M := by
  change alookup l (step_min g.1 g.2 []) = some m at hm
  change alookup l (step_max g.1 g.2 []) = some M at hM
  rw [step_min_lookup] at hm
  rw [step_max_lookup] at hM
  have h0 : alookup l ([] : List (Char × Nat)) = none := rfl
  rw [h0] at hm hM
  simp only [Option.getD_none, min_self] at hm hM
  split_ifs at hm hM with h1 h2
  injection hm with hm1
  injection hM with hM1
  omega

/-- Guess aabbb with feedback G,B,B,B,B. -/
def g_aabbb : Guess := (['a', 'a', 'b', 'b', 'b'], fb_gbbbb)

/-- Guess aaabb with feedback G,G,Y,B,B. -/
def g_aaabb : Guess := (['a', 'a', 'a', 'b', 'b'], ['G', 'G', 'Y', 'B', 'B'])

/-- C6 counterexample: the first guess caps a at one copy, the second
demands three, and the accumulated constraint set stores minCounts above
maxCounts for the letter a. -/
theorem min_max_cross_counterexample :
    alookup 'a' (accumulate_constraints [g_aabbb, g_aaabb]).min_counts = some 3 ∧
    alookup 'a' (accumulate_constraints [g_aabbb, g_aaabb]).max_counts = some 1 ∧
    ¬ (3 ≤ 1) := by
  refine ⟨by decide, by decide, by decide⟩

/-- Witness for the amended C6 theorem at a concrete guess carrying both
entries for the letter a. -/
theorem single_guess_min_le_max_witness :
    alookup 'a' (accumulate_constraints [g_aabbb]).min_counts = some 1 ∧
    alookup 'a' (accumulate_constraints [g_aabbb]).max_counts = some 1 ∧
    (1 : Nat) ≤ 1 :=
  ⟨by decide, by decide, single_guess_min_le_max g_aabbb 'a' 1 1 (by decide) (by decide)⟩

/-- Counting with a predicate splits over a second predicate. -/
theorem countP_split {α : Type} (q r : α → Bool) (L : List α) :
    L.countP q = L.countP (fun a => q a && r a) + L.countP (fun a => q a && !r a) := by
  induction L with
  | nil => rfl
  | cons x t ih =>
    rw [List.countP_cons, List.countP_cons, List.countP_cons, ih]
    by_cases hq : q x = true <;> by_cases hr : r x = true <;> simp [hq, hr] <;> omega

/-- Componentwise index access of a zipped list. -/
theorem get?_zip_eq {α β : Type} (l1 : List α) (l2 : List β) (i : Nat) (x : α) (y : β)
    (h1 : l1.get? i = some x) (h2 : l2.get? i = some y) :
    (l1.zip l2).get? i = some (x, y) := by
  induction l1 generalizing l2 i with
  | nil => simp at h1
  | cons a t ih =>
    cases l2 with
    | nil => simp at h2
    | cons b t2 =>
      cases i with
      | zero =>
        rw [List.get?_cons_zero] at h1 h2
        injection h1 with h1
        injection h2 with h2
        rw [List.zip_cons_cons, List.get?_cons_zero, h1, h2]
      | succ n =>
        rw [List.get?_cons_succ] at h1 h2
        rw [List.zip_cons_cons, List.get?_cons_succ]
        exact ih t2 n h1 h2

/-- A guess holding exactly two copies of a letter, one Correct and one
Absent, tallies exactly one Correct-or-Present mark for it. -/
theorem gy_count_eq_one (w fb : List Char) (l : Char) (i j : Nat)
    (hlen : w.length = fb.length)
    (hcount : w.count l = 2)
    (hwi : w.get? i = some l) (hwj : w.get? j = some l)
    (hfi : fb.get? i = some 'G') (hfj : fb.get? j = some 'B') :
    gy_count w fb l = 1 := by
  have hsplit := countP_split (fun p : Char × Char => p.1 == l)
    (fun p : Char × Char => p.2 == 'G' || p.2 == 'Y') (w.zip fb)
  have hmap : List.map Prod.fst (w.zip fb) = w := List.map_fst_zip w fb (le_of_eq hlen)
  have hfst : (w.zip fb).countP (fun p => p.1 == l) = w.count l := by
    calc (w.zip fb).countP (fun p => p.1 == l)
        = (List.map Prod.fst (w.zip fb)).countP (fun x => x == l) := by
          rw [List.countP_map]; rfl
      _ = w.count l := by rw [hmap, List.count_eq_countP]
  have hGmem : (l, 'G') ∈ w.zip fb := List.get?_mem (get?_zip_eq w fb i l 'G' hwi hfi)
  have hBmem : (l, 'B') ∈ w.zip fb := List.get?_mem (get?_zip_eq w fb j l 'B' hwj hfj)
  have hA : 0 < (w.zip fb).countP
      (fun p => p.1 == l && (p.2 == 'G' || p.2 == 'Y')) :=
    List.countP_pos_iff.mpr ⟨(l, 'G'), hGmem, by simp⟩
  have hB : 0 < (w.zip fb).countP
      (fun p => p.1 == l && !(p.2 == 'G' || p.2 == 'Y')) :=
    List.countP_pos_iff.mpr ⟨(l, 'B'), hBmem, by simp⟩
  rw [hfst, hcount] at hsplit
  rw [gy_count]
  omega

/-- C7: a guess whose word holds exactly two copies of a letter, one marked
Correct and the other Absent, accumulates minCounts and maxCounts of one
for that letter. -/
theorem dup_letter_correct_absent (w fb : List Char) (l : Char) (i j : Nat)
    (hw : w.length = 5) (hfb : fb.length = 5)
    (hcount : w.count l = 2) (_hij : i ≠ j)
    (hwi : w.get? i = some l) (hwj : w.get? j = some l)
    (hfi : fb.get? i = some 'G') (hfj : fb.get? j = some 'B') :
    alookup l (accumulate_constraints [(w, fb)]).min_counts = some 1 ∧
    alookup l (accumulate_constraints [(w, fb)]).max_counts = some 1 := by
  have hlen : w.length = fb.length := by rw [hw, hfb]
  have hgy : gy_count w fb l = 1 :=
    gy_count_eq_one w fb l i j hlen hcount hwi hwj hfi hfj
  have h0 : alookup l ([] : List (Char × Nat)) = none := rfl
  constructor
  · change alookup l (step_min w fb []) = some 1
    rw [step_min_lookup, hgy, h0]
    simp
  · change alookup l (step_max w fb []) = some 1
    rw [step_max_lookup, hgy, hcount, h0]
    simp

/-- Word steel, with a double letter e. -/
def w_steel : List Char := ['s', 't', 'e', 'e', 'l']

/-- Feedback B,B,G,B,B. -/
def fb_bbgbb : List Char := ['B', 'B', 'G', 'B', 'B']

/-- Witness for C7 at the concrete guess steel with its first e Correct and
its second e Absent. -/
theorem dup_letter_correct_absent_witness :
    w_steel.count 'e' = 2 ∧
    alookup 'e' (accumulate_constraints [(w_steel, fb_bbgbb)]).min_counts = some 1 ∧
    alookup 'e' (accumulate_constraints [(w_steel, fb_bbgbb)]).max_counts = some 1 :=
  ⟨by decide,
    (dup_letter_correct_absent w_steel fb_bbgbb 'e' 2 3 (by decide) (by decide)
      (by decide) (by decide) (by decide) (by decide) (by decide) (by decide)).1,
    (dup_letter_correct_absent w_steel fb_bbgbb 'e' 2 3 (by decide) (by decide)
      (by decide) (by decide) (by decide) (by decide) (by decide) (by decide)).2⟩

/-- Witness for the amended C9 theorem at a concrete lowercase word. -/
theorem sanitize_words_mem_iff_witness :
    w_heart ∈ sanitize_words [w_heart] ↔
      w_heart ∈ [w_heart] ∧ w_heart.length = 5 ∧
        py_isalpha w_heart = true ∧ py_islower w_heart = true :=
  sanitize_words_mem_iff w_heart [w_heart]

/-- Witness for the C10 theorem at the concrete scenario word list. -/
theorem solve_no_guesses_witness :
    solve scenario_words [] = ⟨[], [], [], [], scenario_words⟩ :=
  solve_no_guesses scenario_words
